import Mathlib

/-!
Verification development for `fetch_recent_content.py` of the
article-highlighter repository.  The Python program is shallowly embedded:
Python strings become lists of characters, the pure text transformations of
the script become Lean functions, and the orchestration loop becomes a fold
over the already-fetched data.  Network and file transport are external
collaborators and are not modelled; every function below is translated from
the body of the corresponding Python function.
-/

/-- Python strings are modelled as lists of characters. -/
abbrev Str := List Char

/-- Whitespace characters removed by Python `str.strip()` with no argument
(the ASCII whitespace set; the program only ever strips spaces and
newlines). -/
def isPySpace (c : Char) : Bool :=
  c == ' ' || c == '\t' || c == '\n' || c == '\r' || c == '\x0b' || c == '\x0c'

/-- Python `s.lstrip()`: remove leading whitespace. -/
def lstrip (s : Str) : Str := s.dropWhile isPySpace

/-- Python `s.rstrip()`: remove trailing whitespace. -/
def rstrip (s : Str) : Str := (s.reverse.dropWhile isPySpace).reverse

/-- Python `s.strip()`: remove whitespace from both ends. -/
def pyStrip (s : Str) : Str := rstrip (lstrip s)

/-- Position of the first occurrence of `sub` in the second argument,
scanning left to right, or `none` when `sub` does not occur. -/
def findSub (sub : Str) : Str → Option Nat
  | [] => if sub.isPrefixOf [] then some 0 else none
  | c :: t => if sub.isPrefixOf (c :: t) then some 0 else (findSub sub t).map (· + 1)

/-- Python `s.find(sub)`: first index of `sub` in `s`, and `-1` when `sub`
is absent. -/
def pyFind (s sub : Str) : Int :=
  match findSub sub s with
  | some i => (i : Int)
  | none => -1

/-- Python slicing `l[:n]` for an arbitrary integer `n`: for `0 ≤ n` the
first `n` elements, for `n < 0` everything up to `n` positions before the
end (so `max (length l + n) 0` elements). -/
def pyTake (n : Int) (l : List α) : List α :=
  if 0 ≤ n then l.take n.toNat else l.take (l.length - n.natAbs)

/-- The start marker literal of `ReadmeUpdater.update` (line 124). -/
def start_marker : Str := "<!-- ARTICLES -->".toList

/-- The end marker literal of `ReadmeUpdater.update` (line 125). -/
def end_marker : Str := "<!-- /ARTICLES -->".toList

/-- The pure text transformation performed by `ReadmeUpdater.update`
(lines 127-138), parameterised over the document, the two marker strings
and the replacement text:

    start_idx = readme_content.find(start_marker) + len(start_marker)
    end_idx = readme_content.find(end_marker)
    if start_idx == -1 or end_idx == -1: raise ValueError(...)
    updated_content = (readme_content[:start_idx].strip() + two newlines +
                       recent_articles.strip() + one newline +
                       readme_content[end_idx:].strip())

The error branch is modelled by `Except.error ()`. -/
def splice (doc sm em r : Str) : Except Unit Str :=
  if pyFind doc sm + (sm.length : Int) = -1 ∨ pyFind doc em = -1 then
    Except.error ()
  else
    Except.ok (pyStrip (doc.take (pyFind doc sm + (sm.length : Int)).toNat) ++
      '\n' :: '\n' :: (pyStrip r ++ '\n' :: pyStrip (doc.drop (pyFind doc em).toNat)))

/-- Boolean test: `sub` occurs in `s` starting at position `i`. -/
def occursAtB (s sub : Str) (i : Nat) : Bool := sub.isPrefixOf (s.drop i)

/-- `sub` occurs in `s` starting at position `i`. -/
def OccursAt (s sub : Str) (i : Nat) : Prop := occursAtB s sub i = true

/-- Number of positions at which `sub` occurs in `s`. -/
def countOcc (s sub : Str) : Nat :=
  ((List.range (s.length + 1)).filter (occursAtB s sub)).length

/-- An article record as produced by the source adapters: `title` and
`link` always present, the two engagement counters only for sources that
supply them (`x.get(key, 0)` treats the absent case as 0). -/
structure Article where
  title : Str
  link : Str
  positive_reactions_count : Option Nat
  comments_count : Option Nat
deriving DecidableEq

/-- The sort key of `ArticleFilter.get_top_articles` (line 87):
`(x.get('positive_reactions_count', 0), x.get('comments_count', 0))`. -/
def keyOf (a : Article) : Nat × Nat :=
  (a.positive_reactions_count.getD 0, a.comments_count.getD 0)

/-- Lexicographic order on key pairs, as in Python tuple comparison. -/
def keyLe (p q : Nat × Nat) : Prop := p.1 < q.1 ∨ (p.1 = q.1 ∧ p.2 ≤ q.2)

/-- `articleGe x y` holds when `x` may come no later than `y` in the
output of `sorted(..., key=keyOf, reverse=True)`, i.e. the key of `x` is
at least the key of `y`. -/
def articleGe (x y : Article) : Prop := keyLe (keyOf y) (keyOf x)

instance : DecidableRel keyLe := fun p q => by
  unfold keyLe
  infer_instance

instance : DecidableRel articleGe := fun x y => by
  unfold articleGe
  infer_instance

/-- `ArticleFilter.get_top_articles` (lines 82-90):
`sorted(articles, key=..., reverse=True)[:top_n]`.  Python `sorted` is a
stable sort; with `reverse=True` it orders by key descending while equal
keys keep their input order.  A stable sort by the total preorder
`articleGe` is unique, and is realised here by insertion sort. -/
def get_top_articles (articles : List Article) (top_n : Int) : List Article :=
  pyTake top_n (List.insertionSort articleGe articles)

/-- `ArticleFilter.limit_articles` (lines 92-95): `articles[:limit]`. -/
def limit_articles (articles : List Article) (limit : Int) : List Article :=
  pyTake limit articles

/-- The two concrete article source variants of the script. -/
inductive Source where
  | DevToSource (username : Str)
  | RSSFeedSource (feed_url : Str)
deriving DecidableEq

/-- The `isinstance(source, DevToSource)` test of line 170. -/
def Source.isDevTo : Source → Bool
  | DevToSource _ => true
  | RSSFeedSource _ => false

/-- A character of the regex class `[\w\d]` (ASCII reading of `\w`). -/
def isWordChar (c : Char) : Bool := c.isAlphanum || c == '_'

/-- The literal part `dev\.to\/` of the username regex. -/
def devtoPat : Str := "dev.to/".toList

/-- The literal `'dev.to'` used by the factory substring test (line 149). -/
def devtoSub : Str := "dev.to".toList

/-- One attempt of the regex `dev\.to\/@?([\w\d]+)` anchored at the start
of `s`: the literal `dev.to/`, an optional `@`, then a non-empty greedy
run of word characters, which is the captured group. -/
def tryMatchAt (s : Str) : Option Str :=
  if devtoPat.isPrefixOf s then
    match s.drop devtoPat.length with
    | '@' :: t => if t.takeWhile isWordChar = [] then none else some (t.takeWhile isWordChar)
    | t => if t.takeWhile isWordChar = [] then none else some (t.takeWhile isWordChar)
  else none

/-- `DevToSource.extract_username_from_url` (lines 70-76):
`re.search` returns the leftmost match, so the pattern is tried at every
position from left to right. -/
def extract_username_from_url : Str → Option Str
  | [] => none
  | c :: t =>
    match tryMatchAt (c :: t) with
    | some w => some w
    | none => extract_username_from_url t

/-- `SourceFactory.create_source` (lines 146-155). -/
def create_source (url : Str) : Option Source :=
  if (findSub devtoSub url).isSome then
    match extract_username_from_url url with
    | some username => some (Source.DevToSource username)
    | none => none
  else some (Source.RSSFeedSource url)

/-- `ArticleWriter.write_articles` (lines 104-109): the complete content
written to the markdown file, header first, then one bullet per article in
loop order. -/
def write_articles (articles : List Article) : Str :=
  "## Articles\n\n".toList ++
    articles.foldl
      (fun acc a => acc ++ ("- [".toList ++ a.title ++ "](".toList ++ a.link ++ ")\n".toList)) []

/-- The literal `'top'` compared against `article_type` (line 170). -/
def topLit : Str := "top".toList

/-- The fetch-and-filter loop of `main` (lines 165-173), starting from the
already-fetched per-source article lists: per source, rank with
`get_top_articles` exactly when the source is a DevTo source, the article
type is `top` and the limit is positive, then extend the accumulator. -/
def main_collect (article_type : Str) (article_limit : Int)
    (fetched : List (Source × List Article)) : List Article :=
  fetched.foldl
    (fun acc p =>
      acc ++ (if article_type = topLit ∧ 0 < article_limit ∧ p.1.isDevTo = true
              then get_top_articles p.2 article_limit else p.2))
    []

/-- Aggregation plus the global truncation of `main` (lines 165-176). -/
def main_articles (article_type : Str) (article_limit : Int)
    (fetched : List (Source × List Article)) : List Article :=
  limit_articles (main_collect article_type article_limit fetched) article_limit

/-- Definition following the words of claim C2 (and spec section 4.5):
prefix up to and including the start marker RIGHT-trimmed only, suffix
from the end marker on LEFT-trimmed only.  Written for comparison with
`splice`, which is translated from the code. -/
def spliceClaimC2 (doc sm em r : Str) : Except Unit Str :=
  match findSub sm doc, findSub em doc with
  | some s, some e =>
    Except.ok (rstrip (doc.take (s + sm.length)) ++
      '\n' :: '\n' :: (pyStrip r ++ '\n' :: lstrip (doc.drop e)))
  | _, _ => Except.error ()

/-- Concrete document that contains the end marker but not the start
marker (the failing input for claim C1). -/
def c1doc : Str := "intro text <!-- /ARTICLES --> outro".toList

/-- Replacement text used with `c1doc`. -/
def c1r : Str := "X".toList

/-- What the code actually returns on `c1doc` instead of raising:
`find` returned -1, so the slice bound is `-1 + 17 = 16`. -/
def c1out : Str := "intro text <!--\n\nX\n<!-- /ARTICLES --> outro".toList

/-- Document with leading and trailing whitespace, distinguishing
one-sided trimming from two-sided trimming. -/
def c2doc : Str := "  x<!-- ARTICLES -->m<!-- /ARTICLES -->y  ".toList

/-- Replacement text used with `c2doc`. -/
def c2r : Str := " R ".toList

/-- Output demanded by the words of claim C2 on `c2doc`: the leading and
trailing blanks survive one-sided trimming. -/
def c2claimOut : Str := "  x<!-- ARTICLES -->\n\nR\n<!-- /ARTICLES -->y  ".toList

/-- Output the code produces on `c2doc`: both ends are stripped. -/
def c2codeOut : Str := "x<!-- ARTICLES -->\n\nR\n<!-- /ARTICLES -->y".toList

/-- Replacement text for the idempotence witness. -/
def w3r : Str := "w".toList

/-- The once-spliced document of the idempotence witness. -/
def w3out : Str := "x<!-- ARTICLES -->\n\nw\n<!-- /ARTICLES -->z".toList

/-- Two articles used as inputs for the negative-limit counterexamples. -/
def cArts : List Article :=
  [⟨"A".toList, "a".toList, some 1, some 0⟩, ⟨"B".toList, "b".toList, some 5, some 0⟩]

/-- Three articles with a tied key, for the sortedness and stability
witness. -/
def w6arts : List Article :=
  [⟨"A".toList, "a".toList, some 3, some 1⟩, ⟨"B".toList, "b".toList, some 3, some 1⟩,
   ⟨"C".toList, "c".toList, some 5, some 0⟩]

/-- Document in which the end marker occurs before the start marker. -/
def w10doc : Str := end_marker ++ start_marker

/-- Replacement text used with `w10doc`. -/
def w10r : Str := "w".toList

/-! Basic facts about prefixes, occurrences and `findSub`. -/

theorem isPreOf_iff (u : Str) : ∀ v : Str, u.isPrefixOf v = true ↔ ∃ t, u ++ t = v := by
  induction u with
  | nil => intro v; simp [List.isPrefixOf]
  | cons a u ih =>
    intro v
    cases v with
    | nil => simp [List.isPrefixOf]
    | cons b v =>
      simp only [List.isPrefixOf, Bool.and_eq_true, beq_iff_eq, ih, List.cons_append,
        List.cons.injEq]
      constructor
      · rintro ⟨rfl, t, rfl⟩
        exact ⟨t, rfl, rfl⟩
      · rintro ⟨t, rfl, rfl⟩
        exact ⟨rfl, t, rfl⟩

theorem occursAt_iff (s sub : Str) (i : Nat) :
    OccursAt s sub i ↔ ∃ t, sub ++ t = s.drop i := by
  unfold OccursAt occursAtB
  exact isPreOf_iff sub (s.drop i)

theorem occursAt_lt (s sub : Str) (i : Nat) (hne : sub ≠ []) (h : OccursAt s sub i) :
    i < s.length := by
  rcases (occursAt_iff s sub i).1 h with ⟨t, ht⟩
  have hlen := congrArg List.length ht
  simp [List.length_append, List.length_drop] at hlen
  have hpos : 0 < sub.length := List.length_pos.2 hne
  omega

theorem drop_len_append (x y : Str) : (x ++ y).drop x.length = y := by
  rw [List.drop_append_of_le_length (Nat.le_refl _), List.drop_length, List.nil_append]

theorem take_len_append (x y : Str) : (x ++ y).take x.length = x := by
  rw [List.take_append_of_le_length (Nat.le_refl _), List.take_length]

theorem occursAt_here (x sub y : Str) : OccursAt (x ++ (sub ++ y)) sub x.length := by
  rw [occursAt_iff]
  exact ⟨y, by rw [drop_len_append]⟩

theorem occursAt_take (x y sub : Str) (i : Nat) (h : OccursAt (x ++ y) sub i)
    (hb : i + sub.length ≤ x.length) : OccursAt x sub i := by
  rw [occursAt_iff] at h ⊢
  rcases h with ⟨t, ht⟩
  have hi : i ≤ x.length := by omega
  rw [List.drop_append_of_le_length hi] at ht
  have h1 : sub = (x.drop i).take sub.length := by
    have h2 := congrArg (List.take sub.length) ht
    rw [List.take_append_of_le_length (Nat.le_refl _), List.take_length] at h2
    rw [List.take_append_of_le_length (by rw [List.length_drop]; omega)] at h2
    exact h2
  refine ⟨(x.drop i).drop sub.length, ?_⟩
  calc sub ++ (x.drop i).drop sub.length
      = (x.drop i).take sub.length ++ (x.drop i).drop sub.length := by rw [← h1]
    _ = x.drop i := List.take_append_drop _ _

theorem occursAt_right_split (x y sub : Str) (i : Nat) (h : OccursAt (x ++ y) sub i)
    (hb : x.length ≤ i) : OccursAt y sub (i - x.length) := by
  rw [occursAt_iff] at h ⊢
  rcases h with ⟨t, ht⟩
  have hi : i = x.length + (i - x.length) := by omega
  rw [hi, List.drop_append] at ht
  exact ⟨t, ht⟩

theorem occursAt_shift (x y sub : Str) (j : Nat) (h : OccursAt y sub j) :
    OccursAt (x ++ y) sub (x.length + j) := by
  rw [occursAt_iff] at h ⊢
  rw [List.drop_append]
  exact h

theorem occursAt_ext (x z sub : Str) (i : Nat) (h : OccursAt x sub i) :
    OccursAt (x ++ z) sub i := by
  rw [occursAt_iff] at h ⊢
  rcases h with ⟨t, ht⟩
  rcases Nat.le_total i x.length with hi | hi
  · rw [List.drop_append_of_le_length hi, ← ht]
    exact ⟨t ++ z, by rw [List.append_assoc]⟩
  · rw [List.drop_of_length_le hi] at ht
    have hsub : sub = [] := (List.append_eq_nil.mp ht).1
    subst hsub
    exact ⟨(x ++ z).drop i, by simp⟩

theorem occursAt_cross (x y sub : Str) (ch : Char) (i : Nat)
    (h : OccursAt (x ++ ch :: y) sub i) (hch : ch ∉ sub) :
    i + sub.length ≤ x.length ∨ x.length + 1 ≤ i := by
  by_contra hcon
  push_neg at hcon
  rcases hcon with ⟨h1, h2⟩
  have hi : i ≤ x.length := by omega
  rw [occursAt_iff] at h
  rcases h with ⟨t, ht⟩
  rw [List.drop_append_of_le_length hi] at ht
  have hsub : sub = (x.drop i ++ ch :: y).take sub.length := by
    have h3 := congrArg (List.take sub.length) ht
    rw [List.take_append_of_le_length (Nat.le_refl _), List.take_length] at h3
    exact h3
  have hlen : (x.drop i).length = x.length - i := List.length_drop i x
  have hxle : (x.drop i).length ≤ sub.length := by omega
  rw [List.take_append_eq_append_take, List.take_of_length_le hxle] at hsub
  obtain ⟨m, hm⟩ : ∃ m, sub.length - (x.drop i).length = m + 1 :=
    ⟨sub.length - (x.drop i).length - 1, by omega⟩
  rw [hm, List.take_succ_cons] at hsub
  exact hch (by rw [hsub]; exact List.mem_append_right _ (List.mem_cons_self _ _))

theorem findSub_pos (sub : Str) : ∀ (s : Str) (p : Nat), OccursAt s sub p →
    (∀ j, j < p → ¬ OccursAt s sub j) → findSub sub s = some p := by
  intro s
  induction s with
  | nil =>
    intro p hp hmin
    have h0 : OccursAt ([] : Str) sub 0 := by
      unfold OccursAt occursAtB at hp ⊢
      simpa using hp
    have hp0 : p = 0 := by
      by_contra hne
      exact hmin 0 (Nat.pos_of_ne_zero hne) h0
    subst hp0
    unfold OccursAt occursAtB at h0
    simp at h0
    simp [findSub, h0]
  | cons c t ih =>
    intro p hp hmin
    by_cases hpre : sub.isPrefixOf (c :: t) = true
    · have h0 : OccursAt (c :: t) sub 0 := by
        unfold OccursAt occursAtB
        simpa using hpre
      have hp0 : p = 0 := by
        by_contra hne
        exact hmin 0 (Nat.pos_of_ne_zero hne) h0
      subst hp0
      simp [findSub, hpre]
    · have hp0 : p ≠ 0 := by
        intro h0
        subst h0
        unfold OccursAt occursAtB at hp
        rw [List.drop_zero] at hp
        exact hpre hp
      obtain ⟨q, rfl⟩ : ∃ q, p = q + 1 := ⟨p - 1, by omega⟩
      have hq : OccursAt t sub q := by
        unfold OccursAt occursAtB at hp ⊢
        simpa [List.drop_succ_cons] using hp
      have hqmin : ∀ j, j < q → ¬ OccursAt t sub j := by
        intro j hj hcontra
        refine hmin (j + 1) (by omega) ?_
        unfold OccursAt occursAtB at hcontra ⊢
        simpa [List.drop_succ_cons] using hcontra
      have hrec := ih q hq hqmin
      simp [findSub, hpre, hrec]

theorem findSub_none (sub : Str) : ∀ (s : Str), findSub sub s = none →
    ∀ i, ¬ OccursAt s sub i := by
  intro s
  induction s with
  | nil =>
    intro h i hocc
    unfold OccursAt occursAtB at hocc
    simp at hocc
    simp [findSub, hocc] at h
  | cons c t ih =>
    intro h i hocc
    by_cases hpre : sub.isPrefixOf (c :: t) = true
    · simp [findSub, hpre] at h
    · simp [findSub, hpre] at h
      cases i with
      | zero =>
        unfold OccursAt occursAtB at hocc
        rw [List.drop_zero] at hocc
        exact hpre hocc
      | succ j =>
        refine ih h j ?_
        unfold OccursAt occursAtB at hocc ⊢
        simpa [List.drop_succ_cons] using hocc

theorem findSub_some_occ (sub : Str) : ∀ (s : Str) (p : Nat), findSub sub s = some p →
    OccursAt s sub p := by
  intro s
  induction s with
  | nil =>
    intro p h
    by_cases hpre : sub.isPrefixOf ([] : Str) = true
    · simp [findSub, hpre] at h
      unfold OccursAt occursAtB
      simpa [← h] using hpre
    · simp [findSub, hpre] at h
  | cons c t ih =>
    intro p h
    by_cases hpre : sub.isPrefixOf (c :: t) = true
    · simp [findSub, hpre] at h
      unfold OccursAt occursAtB
      simpa [← h] using hpre
    · simp [findSub, hpre] at h
      rcases h with ⟨q, hq, rfl⟩
      have hocc := ih q hq
      unfold OccursAt occursAtB at hocc ⊢
      simpa [List.drop_succ_cons] using hocc

theorem countOcc_unique (s sub : Str) (p i : Nat) (hne : sub ≠ [])
    (hc : countOcc s sub = 1) (hp : OccursAt s sub p) (hi : OccursAt s sub i) : i = p := by
  unfold countOcc at hc
  rcases List.length_eq_one.mp hc with ⟨a, ha⟩
  have hmem : ∀ j, OccursAt s sub j → j ∈ [a] := by
    intro j hj
    rw [← ha]
    refine List.mem_filter.mpr ⟨List.mem_range.mpr ?_, hj⟩
    have := occursAt_lt s sub j hne hj
    omega
  have h1 := hmem p hp
  have h2 := hmem i hi
  simp at h1 h2
  rw [h1, h2]

/-! Algebra of `lstrip`, `rstrip` and `pyStrip`. -/

theorem dropWhile_append_fix (p : Char → Bool) (x m : Str) (hm : m.dropWhile p = m) :
    (x ++ m).dropWhile p = x.dropWhile p ++ m := by
  induction x with
  | nil => simpa using hm
  | cons a t ih =>
    by_cases h : p a = true
    · simp [List.dropWhile_cons, h, ih]
    · simp [List.dropWhile_cons, h]

theorem dropWhile_len_le (p : Char → Bool) (l : Str) : (l.dropWhile p).length ≤ l.length := by
  induction l with
  | nil => simp
  | cons a t ih =>
    by_cases h : p a = true
    · simp only [List.dropWhile_cons, h, if_true, List.length_cons]
      omega
    · simp [List.dropWhile_cons, h]

theorem head_not_of_fix (p : Char → Bool) (c : Char) (t : Str)
    (h : (c :: t).dropWhile p = c :: t) : p c = false := by
  by_cases hc : p c = true
  · rw [List.dropWhile_cons, if_pos hc] at h
    have hlen := congrArg List.length h
    have hle := dropWhile_len_le p t
    simp at hlen
    omega
  · simpa using hc

theorem dropWhile_fix_cons_append (p : Char → Bool) (c : Char) (t u : Str) (h : p c = false) :
    ((c :: t) ++ u).dropWhile p = (c :: t) ++ u := by
  simp [List.dropWhile_cons, h]

theorem dropWhile_idem_ch (p : Char → Bool) (l : Str) :
    (l.dropWhile p).dropWhile p = l.dropWhile p := by
  induction l with
  | nil => simp
  | cons a t ih =>
    by_cases h : p a = true
    · simp [List.dropWhile_cons, h, ih]
    · simp [List.dropWhile_cons, h]

theorem rstrip_append_keep (x m : Str) (hm : m.reverse.dropWhile isPySpace = m.reverse)
    (hne : m ≠ []) : rstrip (x ++ m) = x ++ m := by
  have hrne : m.reverse ≠ [] := by simpa using hne
  rcases List.exists_cons_of_ne_nil hrne with ⟨c, t, hct⟩
  have hc : isPySpace c = false := head_not_of_fix isPySpace c t (by rw [← hct]; exact hm)
  unfold rstrip
  rw [List.reverse_append, hct, dropWhile_fix_cons_append isPySpace c t x.reverse hc, ← hct,
    ← List.reverse_append, List.reverse_reverse]

theorem rstrip_m_append (m y : Str) (hm : m.reverse.dropWhile isPySpace = m.reverse) :
    rstrip (m ++ y) = m ++ rstrip y := by
  unfold rstrip
  rw [List.reverse_append, dropWhile_append_fix isPySpace y.reverse m.reverse hm,
    List.reverse_append, List.reverse_reverse]

theorem rstrip_idem (l : Str) : rstrip (rstrip l) = rstrip l := by
  unfold rstrip
  rw [List.reverse_reverse, dropWhile_idem_ch]

theorem pyStrip_append_m (x m : Str) (h1 : m.dropWhile isPySpace = m)
    (h2 : m.reverse.dropWhile isPySpace = m.reverse) (hne : m ≠ []) :
    pyStrip (x ++ m) = lstrip x ++ m := by
  unfold pyStrip lstrip
  rw [dropWhile_append_fix isPySpace x m h1]
  exact rstrip_append_keep (x.dropWhile isPySpace) m h2 hne

theorem pyStrip_m_append (m y : Str) (h1 : m.dropWhile isPySpace = m)
    (h2 : m.reverse.dropWhile isPySpace = m.reverse) (hne : m ≠ []) :
    pyStrip (m ++ y) = m ++ rstrip y := by
  rcases List.exists_cons_of_ne_nil hne with ⟨c, t, hct⟩
  have hc : isPySpace c = false := head_not_of_fix isPySpace c t (by rw [← hct]; exact h1)
  unfold pyStrip lstrip
  rw [hct, dropWhile_fix_cons_append isPySpace c t y hc, ← hct]
  exact rstrip_m_append m y h2

theorem dropWhile_suffix_ex (p : Char → Bool) (l : Str) :
    ∃ u, u ++ l.dropWhile p = l := by
  induction l with
  | nil => exact ⟨[], rfl⟩
  | cons a t ih =>
    by_cases h : p a = true
    · rcases ih with ⟨u, hu⟩
      exact ⟨a :: u, by simp [List.dropWhile_cons, h, hu]⟩
    · exact ⟨[], by simp [List.dropWhile_cons, h]⟩

theorem rstrip_pre_ex (l : Str) : ∃ w, rstrip l ++ w = l := by
  rcases dropWhile_suffix_ex isPySpace l.reverse with ⟨u, hu⟩
  refine ⟨u.reverse, ?_⟩
  have h := congrArg List.reverse hu
  rw [List.reverse_append, List.reverse_reverse] at h
  unfold rstrip
  exact h

theorem occursAt_in_pyStrip (r sub : Str) (j : Nat) (h : OccursAt (pyStrip r) sub j) :
    ∃ i, OccursAt r sub i := by
  unfold pyStrip at h
  rcases rstrip_pre_ex (lstrip r) with ⟨w, hw⟩
  have h1 : OccursAt (lstrip r) sub j := by
    rw [← hw]
    exact occursAt_ext _ _ _ _ h
  rcases dropWhile_suffix_ex isPySpace r with ⟨u, hu⟩
  refine ⟨u.length + j, ?_⟩
  have h2 := occursAt_shift u (lstrip r) sub j h1
  unfold lstrip at h2
  rw [hu] at h2
  exact h2

/-! Evaluation of `splice` when both markers are found. -/

theorem splice_eq_of_occ (doc sm em r : Str) (s e : Nat)
    (hfs : findSub sm doc = some s) (hfe : findSub em doc = some e) :
    splice doc sm em r =
      Except.ok (pyStrip (doc.take (s + sm.length)) ++
        '\n' :: '\n' :: (pyStrip r ++ '\n' :: pyStrip (doc.drop e))) := by
  have hps : pyFind doc sm = (s : Int) := by unfold pyFind; rw [hfs]
  have hpe : pyFind doc em = (e : Int) := by unfold pyFind; rw [hfe]
  unfold splice
  rw [hps, hpe]
  have hcond : ¬ (((s : Int) + (sm.length : Int) = -1) ∨ ((e : Int) = -1)) := by
    push_neg
    constructor <;> omega
  rw [if_neg hcond]
  have h1 : ((s : Int) + (sm.length : Int)).toNat = s + sm.length := by omega
  have h2 : ((e : Int)).toNat = e := by omega
  rw [h1, h2]

/-! Where a string without newlines can occur in the once-spliced shape
`X ++ newline newline (R ++ newline Y)`. -/

theorem occursAt_mid (X R Y sub : Str) (i : Nat) (hne : sub ≠ []) (hnl : '\n' ∉ sub)
    (h : OccursAt (X ++ '\n' :: '\n' :: (R ++ '\n' :: Y)) sub i) :
    (i + sub.length ≤ X.length ∧ OccursAt X sub i)
    ∨ (∃ j, j + sub.length ≤ R.length ∧ OccursAt R sub j)
    ∨ (∃ k, i = X.length + 2 + R.length + 1 + k ∧ OccursAt Y sub k) := by
  have hpos : 0 < sub.length := List.length_pos.2 hne
  rcases occursAt_cross X ('\n' :: (R ++ '\n' :: Y)) sub '\n' i h hnl with h1 | h1
  · exact Or.inl ⟨h1, occursAt_take X _ sub i h h1⟩
  · have e2 : X ++ '\n' :: '\n' :: (R ++ '\n' :: Y)
        = (X ++ ['\n']) ++ '\n' :: (R ++ '\n' :: Y) := by simp
    rw [e2] at h
    rcases occursAt_cross (X ++ ['\n']) (R ++ '\n' :: Y) sub '\n' i h hnl with h2 | h2
    · exfalso
      simp [List.length_append] at h2
      omega
    · simp only [List.length_append, List.length_cons, List.length_nil] at h2
      have e3 : (X ++ ['\n']) ++ '\n' :: (R ++ '\n' :: Y)
          = (X ++ ['\n', '\n']) ++ (R ++ '\n' :: Y) := by simp
      rw [e3] at h
      have hlen2 : (X ++ ['\n', '\n']).length = X.length + 2 := by simp
      have hxl : (X ++ ['\n', '\n']).length ≤ i := by omega
      have h3 := occursAt_right_split _ _ sub i h hxl
      rw [hlen2] at h3
      rcases occursAt_cross R Y sub '\n' (i - (X.length + 2)) h3 hnl with h4 | h4
      · exact Or.inr (Or.inl ⟨i - (X.length + 2), h4,
          occursAt_take R _ sub _ h3 h4⟩)
      · have e4 : R ++ '\n' :: Y = (R ++ ['\n']) ++ Y := by simp
        rw [e4] at h3
        have hlen4 : (R ++ ['\n']).length = R.length + 1 := by simp
        have hrl : (R ++ ['\n']).length ≤ i - (X.length + 2) := by omega
        have h5 := occursAt_right_split _ _ sub _ h3 hrl
        rw [hlen4] at h5
        refine Or.inr (Or.inr ⟨i - (X.length + 2) - (R.length + 1), ?_, h5⟩)
        omega

/-! Core lemma for idempotence: on a document with a unique start marker
occurrence followed by a unique end marker occurrence, `splice` produces a
normal form, and applied again with the same replacement it returns that
normal form unchanged. -/

theorem splice_core (sm em a b c r : Str)
    (hsm_ne : sm ≠ []) (hem_ne : em ≠ [])
    (hsm_nl : '\n' ∉ sm) (hem_nl : '\n' ∉ em)
    (hsm_l : sm.dropWhile isPySpace = sm)
    (hsm_r : sm.reverse.dropWhile isPySpace = sm.reverse)
    (hem_l : em.dropWhile isPySpace = em)
    (hem_r : em.reverse.dropWhile isPySpace = em.reverse)
    (h1 : ∀ i, OccursAt (a ++ sm ++ b ++ em ++ c) sm i → i = a.length)
    (h2 : ∀ i, OccursAt (a ++ sm ++ b ++ em ++ c) em i → i = a.length + sm.length + b.length)
    (h3 : ∀ i, ¬ OccursAt r sm i)
    (h4 : ∀ i, ¬ OccursAt r em i) :
    splice (a ++ sm ++ b ++ em ++ c) sm em r
      = Except.ok ((lstrip a ++ sm) ++ '\n' :: '\n' :: (pyStrip r ++ '\n' :: (em ++ rstrip c)))
    ∧ splice ((lstrip a ++ sm) ++ '\n' :: '\n' :: (pyStrip r ++ '\n' :: (em ++ rstrip c))) sm em r
      = Except.ok ((lstrip a ++ sm) ++ '\n' :: '\n' :: (pyStrip r ++ '\n' :: (em ++ rstrip c))) := by
  have hsmpos : 0 < sm.length := List.length_pos.2 hsm_ne
  have hempos : 0 < em.length := List.length_pos.2 hem_ne
  have hassoc : a ++ sm ++ b ++ em ++ c = (a ++ sm ++ b) ++ (em ++ c) := by
    simp [List.append_assoc]
  have habs_len : (a ++ sm ++ b).length = a.length + sm.length + b.length := by
    simp only [List.length_append]
  -- first occurrences in the original document
  have hocc_s : OccursAt (a ++ sm ++ b ++ em ++ c) sm a.length := by
    have h := occursAt_here a sm (b ++ em ++ c)
    rw [show a ++ (sm ++ (b ++ em ++ c)) = a ++ sm ++ b ++ em ++ c from by
      simp [List.append_assoc]] at h
    exact h
  have hfs : findSub sm (a ++ sm ++ b ++ em ++ c) = some a.length :=
    findSub_pos sm _ _ hocc_s (fun j hj hocc => by have := h1 j hocc; omega)
  have hocc_e : OccursAt (a ++ sm ++ b ++ em ++ c) em (a.length + sm.length + b.length) := by
    have h := occursAt_here (a ++ sm ++ b) em c
    rw [← hassoc, habs_len] at h
    exact h
  have hfe : findSub em (a ++ sm ++ b ++ em ++ c) = some (a.length + sm.length + b.length) :=
    findSub_pos em _ _ hocc_e (fun j hj hocc => by have := h2 j hocc; omega)
  -- first application
  have hsp1 := splice_eq_of_occ (a ++ sm ++ b ++ em ++ c) sm em r _ _ hfs hfe
  have htake : (a ++ sm ++ b ++ em ++ c).take (a.length + sm.length) = a ++ sm := by
    have h := take_len_append (a ++ sm) (b ++ em ++ c)
    rw [show (a ++ sm) ++ (b ++ em ++ c) = a ++ sm ++ b ++ em ++ c from by
      simp [List.append_assoc]] at h
    rw [show (a ++ sm).length = a.length + sm.length from by simp] at h
    exact h
  have hdrop : (a ++ sm ++ b ++ em ++ c).drop (a.length + sm.length + b.length) = em ++ c := by
    have h := drop_len_append (a ++ sm ++ b) (em ++ c)
    rw [← hassoc, habs_len] at h
    exact h
  rw [htake, hdrop, pyStrip_append_m a sm hsm_l hsm_r hsm_ne,
    pyStrip_m_append em c hem_l hem_r hem_ne] at hsp1
  -- decomposition of a and c used to lift occurrences back to the document
  rcases dropWhile_suffix_ex isPySpace a with ⟨w, hw0⟩
  have hw : w ++ lstrip a = a := hw0
  have hwlen : w.length + (lstrip a).length = a.length := by
    have h := congrArg List.length hw
    simpa [List.length_append] using h
  rcases rstrip_pre_ex c with ⟨v, hv⟩
  -- uniqueness of the start marker in the normal form
  have hU1 : ∀ i,
      OccursAt ((lstrip a ++ sm) ++ '\n' :: '\n' :: (pyStrip r ++ '\n' :: (em ++ rstrip c))) sm i →
      i = (lstrip a).length := by
    intro i hi
    rcases occursAt_mid (lstrip a ++ sm) (pyStrip r) (em ++ rstrip c) sm i hsm_ne hsm_nl hi with
      ⟨hb, hX⟩ | ⟨j, hjb, hjR⟩ | ⟨k, hik, hY⟩
    · have hsh := occursAt_shift w (lstrip a ++ sm) sm i hX
      rw [show w ++ (lstrip a ++ sm) = a ++ sm from by rw [← List.append_assoc, hw]] at hsh
      have hext := occursAt_ext (a ++ sm) (b ++ em ++ c) sm _ hsh
      rw [show (a ++ sm) ++ (b ++ em ++ c) = a ++ sm ++ b ++ em ++ c from by
        simp [List.append_assoc]] at hext
      have := h1 _ hext
      omega
    · exfalso
      rcases occursAt_in_pyStrip r sm j hjR with ⟨i', hi'⟩
      exact h3 i' hi'
    · exfalso
      have hocc2 : OccursAt ((em ++ rstrip c) ++ v) sm k := occursAt_ext _ _ _ _ hY
      rw [show (em ++ rstrip c) ++ v = em ++ c from by rw [List.append_assoc, hv]] at hocc2
      have hsh := occursAt_shift (a ++ sm ++ b) (em ++ c) sm k hocc2
      rw [← hassoc, habs_len] at hsh
      have := h1 _ hsh
      omega
  -- uniqueness of the end marker in the normal form
  have hU2 : ∀ i,
      OccursAt ((lstrip a ++ sm) ++ '\n' :: '\n' :: (pyStrip r ++ '\n' :: (em ++ rstrip c))) em i →
      i = (lstrip a ++ sm).length + 2 + (pyStrip r).length + 1 := by
    intro i hi
    rcases occursAt_mid (lstrip a ++ sm) (pyStrip r) (em ++ rstrip c) em i hem_ne hem_nl hi with
      ⟨hb, hX⟩ | ⟨j, hjb, hjR⟩ | ⟨k, hik, hY⟩
    · exfalso
      have hsh := occursAt_shift w (lstrip a ++ sm) em i hX
      rw [show w ++ (lstrip a ++ sm) = a ++ sm from by rw [← List.append_assoc, hw]] at hsh
      have hext := occursAt_ext (a ++ sm) (b ++ em ++ c) em _ hsh
      rw [show (a ++ sm) ++ (b ++ em ++ c) = a ++ sm ++ b ++ em ++ c from by
        simp [List.append_assoc]] at hext
      have heq := h2 _ hext
      have hXlen : (lstrip a ++ sm).length = (lstrip a).length + sm.length := by simp
      omega
    · exfalso
      rcases occursAt_in_pyStrip r em j hjR with ⟨i', hi'⟩
      exact h4 i' hi'
    · have hocc2 : OccursAt ((em ++ rstrip c) ++ v) em k := occursAt_ext _ _ _ _ hY
      rw [show (em ++ rstrip c) ++ v = em ++ c from by rw [List.append_assoc, hv]] at hocc2
      have hsh := occursAt_shift (a ++ sm ++ b) (em ++ c) em k hocc2
      rw [← hassoc, habs_len] at hsh
      have heq := h2 _ hsh
      omega
  -- first occurrences in the normal form
  have hocc_s' :
      OccursAt ((lstrip a ++ sm) ++ '\n' :: '\n' :: (pyStrip r ++ '\n' :: (em ++ rstrip c))) sm
        (lstrip a).length := by
    have h := occursAt_here (lstrip a) sm ('\n' :: '\n' :: (pyStrip r ++ '\n' :: (em ++ rstrip c)))
    rw [show lstrip a ++ (sm ++ '\n' :: '\n' :: (pyStrip r ++ '\n' :: (em ++ rstrip c)))
        = (lstrip a ++ sm) ++ '\n' :: '\n' :: (pyStrip r ++ '\n' :: (em ++ rstrip c)) from by
      simp [List.append_assoc]] at h
    exact h
  have hfs' : findSub sm
      ((lstrip a ++ sm) ++ '\n' :: '\n' :: (pyStrip r ++ '\n' :: (em ++ rstrip c)))
      = some (lstrip a).length :=
    findSub_pos sm _ _ hocc_s' (fun j hj hocc => by have := hU1 j hocc; omega)
  have hplen : ((lstrip a ++ sm) ++ '\n' :: '\n' :: (pyStrip r ++ ['\n'])).length
      = (lstrip a ++ sm).length + 2 + (pyStrip r).length + 1 := by
    simp only [List.length_append, List.length_cons, List.length_nil]
    omega
  have hocc_e' :
      OccursAt ((lstrip a ++ sm) ++ '\n' :: '\n' :: (pyStrip r ++ '\n' :: (em ++ rstrip c))) em
        ((lstrip a ++ sm).length + 2 + (pyStrip r).length + 1) := by
    have h := occursAt_here ((lstrip a ++ sm) ++ '\n' :: '\n' :: (pyStrip r ++ ['\n'])) em
      (rstrip c)
    rw [hplen] at h
    rw [show ((lstrip a ++ sm) ++ '\n' :: '\n' :: (pyStrip r ++ ['\n'])) ++ (em ++ rstrip c)
        = (lstrip a ++ sm) ++ '\n' :: '\n' :: (pyStrip r ++ '\n' :: (em ++ rstrip c)) from by
      simp [List.append_assoc]] at h
    exact h
  have hfe' : findSub em
      ((lstrip a ++ sm) ++ '\n' :: '\n' :: (pyStrip r ++ '\n' :: (em ++ rstrip c)))
      = some ((lstrip a ++ sm).length + 2 + (pyStrip r).length + 1) :=
    findSub_pos em _ _ hocc_e' (fun j hj hocc => by have := hU2 j hocc; omega)
  -- second application
  have hsp2 := splice_eq_of_occ
    ((lstrip a ++ sm) ++ '\n' :: '\n' :: (pyStrip r ++ '\n' :: (em ++ rstrip c))) sm em r _ _
    hfs' hfe'
  have htake' : ((lstrip a ++ sm) ++ '\n' :: '\n' :: (pyStrip r ++ '\n' :: (em ++ rstrip c))).take
      ((lstrip a).length + sm.length) = lstrip a ++ sm := by
    have h := take_len_append (lstrip a ++ sm) ('\n' :: '\n' :: (pyStrip r ++ '\n' :: (em ++ rstrip c)))
    rw [show (lstrip a ++ sm).length = (lstrip a).length + sm.length from by simp] at h
    exact h
  have hdrop' : ((lstrip a ++ sm) ++ '\n' :: '\n' :: (pyStrip r ++ '\n' :: (em ++ rstrip c))).drop
      ((lstrip a ++ sm).length + 2 + (pyStrip r).length + 1) = em ++ rstrip c := by
    have h := drop_len_append ((lstrip a ++ sm) ++ '\n' :: '\n' :: (pyStrip r ++ ['\n']))
      (em ++ rstrip c)
    rw [hplen] at h
    rw [show ((lstrip a ++ sm) ++ '\n' :: '\n' :: (pyStrip r ++ ['\n'])) ++ (em ++ rstrip c)
        = (lstrip a ++ sm) ++ '\n' :: '\n' :: (pyStrip r ++ '\n' :: (em ++ rstrip c)) from by
      simp [List.append_assoc]] at h
    exact h
  rw [htake', hdrop', pyStrip_append_m (lstrip a) sm hsm_l hsm_r hsm_ne,
    pyStrip_m_append em (rstrip c) hem_l hem_r hem_ne,
    show lstrip (lstrip a) = lstrip a from dropWhile_idem_ch isPySpace a,
    rstrip_idem c] at hsp2
  exact ⟨hsp1, hsp2⟩

/-! Take and drop on a decomposed document, and one more fixpoint fact. -/

theorem doc_take (a sm b em c : Str) :
    (a ++ sm ++ b ++ em ++ c).take (a.length + sm.length) = a ++ sm := by
  have h := take_len_append (a ++ sm) (b ++ em ++ c)
  rw [show (a ++ sm) ++ (b ++ em ++ c) = a ++ sm ++ b ++ em ++ c from by
    simp [List.append_assoc]] at h
  rw [show (a ++ sm).length = a.length + sm.length from by simp] at h
  exact h

theorem doc_drop (a sm b em c : Str) :
    (a ++ sm ++ b ++ em ++ c).drop (a.length + sm.length + b.length) = em ++ c := by
  have h := drop_len_append (a ++ sm ++ b) (em ++ c)
  rw [show (a ++ sm ++ b) ++ (em ++ c) = a ++ sm ++ b ++ em ++ c from by
    simp [List.append_assoc]] at h
  rw [show (a ++ sm ++ b).length = a.length + sm.length + b.length from by
    simp only [List.length_append]] at h
  exact h

theorem dropWhile_fix_append (p : Char → Bool) (m u : Str) (hm : m.dropWhile p = m)
    (hne : m ≠ []) : (m ++ u).dropWhile p = m ++ u := by
  rcases List.exists_cons_of_ne_nil hne with ⟨c, t, hct⟩
  have hc : p c = false := head_not_of_fix p c t (by rw [← hct]; exact hm)
  rw [hct]
  exact dropWhile_fix_cons_append p c t u hc

/-- C1: the spec demands that `splice` fail with MarkerNotFound when either
marker is absent.  The code computes `start_idx = find(start_marker) +
len(start_marker)`, so the subsequent `start_idx == -1` test can never
fire; on a document that contains the end marker but not the start marker,
`splice` returns normally with a garbled document instead of raising.
This theorem evaluates the code at such an input: the start marker is
absent from `c1doc`, yet the result is `Except.ok c1out`, not an error. -/
theorem claim_C1_no_error_when_start_marker_absent :
    findSub start_marker c1doc = none ∧
    splice c1doc start_marker end_marker c1r = Except.ok c1out :=
  ⟨by decide, by rfl⟩

/-- C2, counterexample to the stated trimming: the claim says the kept
prefix is only right-trimmed and the kept suffix only left-trimmed
(`spliceClaimC2`), but the code strips both ends of both pieces; on a
document with leading and trailing blanks the two disagree. -/
theorem claim_C2_counterexample :
    spliceClaimC2 c2doc start_marker end_marker c2r = Except.ok c2claimOut ∧
    splice c2doc start_marker end_marker c2r = Except.ok c2codeOut ∧
    c2claimOut ≠ c2codeOut :=
  ⟨by rfl, by rfl, by decide⟩

/-- C2 as amended: for a document that decomposes around the first
occurrences of the two markers, `splice` returns the text up to and
including the start marker trimmed of whitespace on BOTH ends, two
newlines, the replacement trimmed of surrounding whitespace, one newline,
and the text from the end marker onward trimmed of whitespace on BOTH
ends. -/
theorem claim_C2_amended (a b c r : Str)
    (hfs : findSub start_marker (a ++ start_marker ++ b ++ end_marker ++ c) = some a.length)
    (hfe : findSub end_marker (a ++ start_marker ++ b ++ end_marker ++ c)
      = some (a.length + start_marker.length + b.length)) :
    splice (a ++ start_marker ++ b ++ end_marker ++ c) start_marker end_marker r
      = Except.ok (pyStrip (a ++ start_marker) ++
          '\n' :: '\n' :: (pyStrip r ++ '\n' :: pyStrip (end_marker ++ c))) := by
  have h := splice_eq_of_occ (a ++ start_marker ++ b ++ end_marker ++ c)
    start_marker end_marker r _ _ hfs hfe
  rw [doc_take, doc_drop] at h
  exact h

/-- C2 amended, witness at a concrete document with whitespace on both
sides of both kept regions. -/
theorem claim_C2_amended_witness :
    splice ("  A".toList ++ start_marker ++ "m".toList ++ end_marker ++ "B  ".toList)
        start_marker end_marker " R ".toList
      = Except.ok (pyStrip ("  A".toList ++ start_marker) ++
          '\n' :: '\n' :: (pyStrip " R ".toList ++ '\n' ::
            pyStrip (end_marker ++ "B  ".toList))) :=
  claim_C2_amended "  A".toList "m".toList "B  ".toList " R ".toList (by decide) (by decide)

/-- C3: on a document containing exactly one occurrence of the start
marker and exactly one occurrence of the end marker, in that order
(document = a ++ start ++ b ++ end ++ c with unique occurrence counts),
and a replacement containing neither marker, a second application of
`splice` with the same replacement returns exactly the output of the
first application: `splice` is idempotent. -/
theorem claim_C3_idempotent (a b c r out : Str)
    (h1 : countOcc (a ++ start_marker ++ b ++ end_marker ++ c) start_marker = 1)
    (h2 : countOcc (a ++ start_marker ++ b ++ end_marker ++ c) end_marker = 1)
    (h3 : findSub start_marker r = none)
    (h4 : findSub end_marker r = none)
    (hout : splice (a ++ start_marker ++ b ++ end_marker ++ c) start_marker end_marker r
      = Except.ok out) :
    splice out start_marker end_marker r = Except.ok out := by
  have hsm_ne : start_marker ≠ [] := by decide
  have hem_ne : end_marker ≠ [] := by decide
  have hocc_s : OccursAt (a ++ start_marker ++ b ++ end_marker ++ c) start_marker a.length := by
    have h := occursAt_here a start_marker (b ++ end_marker ++ c)
    rw [show a ++ (start_marker ++ (b ++ end_marker ++ c))
        = a ++ start_marker ++ b ++ end_marker ++ c from by simp [List.append_assoc]] at h
    exact h
  have hocc_e : OccursAt (a ++ start_marker ++ b ++ end_marker ++ c) end_marker
      (a.length + start_marker.length + b.length) := by
    have h := occursAt_here (a ++ start_marker ++ b) end_marker c
    rw [show (a ++ start_marker ++ b) ++ (end_marker ++ c)
        = a ++ start_marker ++ b ++ end_marker ++ c from by simp [List.append_assoc]] at h
    rw [show (a ++ start_marker ++ b).length = a.length + start_marker.length + b.length from by
      simp only [List.length_append]] at h
    exact h
  have hu1 : ∀ i, OccursAt (a ++ start_marker ++ b ++ end_marker ++ c) start_marker i →
      i = a.length :=
    fun i hi => countOcc_unique _ _ _ _ hsm_ne h1 hocc_s hi
  have hu2 : ∀ i, OccursAt (a ++ start_marker ++ b ++ end_marker ++ c) end_marker i →
      i = a.length + start_marker.length + b.length :=
    fun i hi => countOcc_unique _ _ _ _ hem_ne h2 hocc_e hi
  have hcore := splice_core start_marker end_marker a b c r hsm_ne hem_ne
    (by decide) (by decide) (by decide) (by decide) (by decide) (by decide)
    hu1 hu2 (findSub_none start_marker r h3) (findSub_none end_marker r h4)
  have hout2 : out = (lstrip a ++ start_marker) ++ '\n' :: '\n' ::
      (pyStrip r ++ '\n' :: (end_marker ++ rstrip c)) := by
    have h := hcore.1
    rw [hout] at h
    exact Except.ok.inj h
  rw [hout2]
  exact hcore.2

/-- C3, witness: the idempotence theorem applied to a concrete document
with one well-ordered marker pair. -/
theorem claim_C3_witness :
    splice w3out start_marker end_marker w3r = Except.ok w3out :=
  claim_C3_idempotent "x".toList "y".toList "z".toList w3r w3out
    (by decide) (by decide) (by decide) (by decide) (by rfl)

/-- C10: when the first occurrence of the end marker begins before the end
of the first occurrence of the start marker, `splice` raises no error, and
the span of text from the end marker up to the end of the start marker
appears twice in the output: once as a suffix of the kept (stripped)
prefix and once as a prefix of the kept (stripped) suffix. -/
theorem claim_C10_overlap (doc r : Str) (s e : Nat)
    (hfs : findSub start_marker doc = some s)
    (hfe : findSub end_marker doc = some e)
    (hover : e < s + start_marker.length) :
    splice doc start_marker end_marker r
      = Except.ok (pyStrip (doc.take (s + start_marker.length)) ++
          '\n' :: '\n' :: (pyStrip r ++ '\n' :: pyStrip (doc.drop e)))
    ∧ (∃ z, pyStrip (doc.take (s + start_marker.length))
        = z ++ (doc.drop e).take (s + start_marker.length - e))
    ∧ (∃ z, pyStrip (doc.drop e)
        = (doc.drop e).take (s + start_marker.length - e) ++ z) := by
  have hsm_ne : start_marker ≠ [] := by decide
  have hem_ne : end_marker ≠ [] := by decide
  have hSlen : start_marker.length ≤ end_marker.length := by decide
  have hE1 : end_marker.length ≤ start_marker.length + 1 := by decide
  have hocc_s := findSub_some_occ start_marker doc s hfs
  have hocc_e := findSub_some_occ end_marker doc e hfe
  rcases (occursAt_iff doc start_marker s).1 hocc_s with ⟨w, hwS⟩
  rcases (occursAt_iff doc end_marker e).1 hocc_e with ⟨v, hvE⟩
  have hlt : e < s := by
    rcases Nat.lt_trichotomy e s with h | h | h
    · exact h
    · exfalso
      subst h
      have hSE : start_marker ++ w = end_marker ++ v := by rw [hwS, hvE]
      have h1 := congrArg (List.take start_marker.length) hSE
      rw [List.take_append_of_le_length (Nat.le_refl _), List.take_length,
        List.take_append_of_le_length hSlen] at h1
      exact (by decide : end_marker.take start_marker.length ≠ start_marker) h1.symm
    · exfalso
      have hk : e - s < start_marker.length := by omega
      have hk0 : 0 < e - s := by omega
      have hde : start_marker.drop (e - s) ++ w = doc.drop e := by
        have hd := congrArg (List.drop (e - s)) hwS
        rw [List.drop_append_of_le_length (by omega), List.drop_drop,
          show s + (e - s) = e from by omega] at hd
        exact hd
      have hEd : end_marker ++ v = start_marker.drop (e - s) ++ w := by rw [hvE, ← hde]
      have hlend : (start_marker.drop (e - s)).length = start_marker.length - (e - s) :=
        List.length_drop _ _
      have hle2 : (start_marker.drop (e - s)).length ≤ end_marker.length := by
        rw [hlend]
        omega
      have h1 := congrArg (List.take (start_marker.drop (e - s)).length) hEd
      rw [take_len_append, List.take_append_of_le_length hle2] at h1
      rw [hlend] at h1
      have hfact : ∀ k, k < start_marker.length → 0 < k →
          end_marker.take (start_marker.length - k) ≠ start_marker.drop k := by decide
      exact hfact (e - s) hk hk0 h1
  have hwlen : start_marker.length + w.length = doc.length - s := by
    have h := congrArg List.length hwS
    simpa [List.length_append, List.length_drop] using h
  have hs_lt : s < doc.length := occursAt_lt doc start_marker s hsm_ne hocc_s
  have he_lt : e < doc.length := occursAt_lt doc end_marker e hem_ne hocc_e
  have hs_bound : s + start_marker.length ≤ doc.length := by omega
  have hYdecomp : doc.drop e = (doc.drop e).take (s - e) ++ (start_marker ++ w) := by
    have h := List.take_append_drop (s - e) (doc.drop e)
    rw [List.drop_drop, show e + (s - e) = s from by omega, ← hwS] at h
    exact h.symm
  have hYlen : ((doc.drop e).take (s - e)).length = s - e := by
    rw [List.length_take, List.length_drop]
    omega
  have hspan : (doc.drop e).take (s + start_marker.length - e)
      = (doc.drop e).take (s - e) ++ start_marker := by
    have h := congrArg
      (List.take (((doc.drop e).take (s - e)).length + start_marker.length)) hYdecomp
    rw [List.take_append, take_len_append] at h
    rw [show ((doc.drop e).take (s - e)).length + start_marker.length
        = s + start_marker.length - e from by rw [hYlen]; omega] at h
    exact h
  have hspE : (doc.drop e).take (s + start_marker.length - e)
      = end_marker ++ v.take (s + start_marker.length - e - end_marker.length) := by
    have h := congrArg (List.take (end_marker.length +
      (s + start_marker.length - e - end_marker.length))) hvE
    rw [List.take_append] at h
    rw [show end_marker.length + (s + start_marker.length - e - end_marker.length)
        = s + start_marker.length - e from by omega] at h
    exact h.symm
  have hsp_ne : (doc.drop e).take (s + start_marker.length - e) ≠ [] := by
    rw [hspE]
    intro hcon
    exact hem_ne (List.append_eq_nil.mp hcon).1
  have hsp_lfix : ((doc.drop e).take (s + start_marker.length - e)).dropWhile isPySpace
      = (doc.drop e).take (s + start_marker.length - e) := by
    rw [hspE]
    exact dropWhile_fix_append isPySpace end_marker _ (by decide) hem_ne
  have hsp_rfix : ((doc.drop e).take (s + start_marker.length - e)).reverse.dropWhile isPySpace
      = ((doc.drop e).take (s + start_marker.length - e)).reverse := by
    rw [hspan, List.reverse_append]
    exact dropWhile_fix_append isPySpace start_marker.reverse _ (by decide) (by decide)
  have hPdecomp : doc.take (s + start_marker.length)
      = doc.take e ++ (doc.drop e).take (s + start_marker.length - e) := by
    have h := congrArg (List.take (s + start_marker.length)) (List.take_append_drop e doc)
    rw [List.take_append_eq_append_take] at h
    rw [show (doc.take e).length = e from by rw [List.length_take]; omega] at h
    rw [List.take_take] at h
    rw [show min (s + start_marker.length) e = e from by omega] at h
    exact h.symm
  refine ⟨splice_eq_of_occ doc start_marker end_marker r s e hfs hfe, ?_, ?_⟩
  · refine ⟨lstrip (doc.take e), ?_⟩
    rw [hPdecomp]
    exact pyStrip_append_m (doc.take e) _ hsp_lfix hsp_rfix hsp_ne
  · refine ⟨rstrip ((doc.drop e).drop (s + start_marker.length - e)), ?_⟩
    nth_rewrite 1 [(List.take_append_drop (s + start_marker.length - e) (doc.drop e)).symm]
    exact pyStrip_m_append _ _ hsp_lfix hsp_rfix hsp_ne

/-- C10, witness: a document in which the end marker occurs at position 0
and the start marker at position 18, so the end marker begins before the
start marker ends. -/
theorem claim_C10_witness :
    splice w10doc start_marker end_marker w10r
      = Except.ok (pyStrip (w10doc.take (18 + start_marker.length)) ++
          '\n' :: '\n' :: (pyStrip w10r ++ '\n' :: pyStrip (w10doc.drop 0)))
    ∧ (∃ z, pyStrip (w10doc.take (18 + start_marker.length))
        = z ++ (w10doc.drop 0).take (18 + start_marker.length - 0))
    ∧ (∃ z, pyStrip (w10doc.drop 0)
        = (w10doc.drop 0).take (18 + start_marker.length - 0) ++ z) :=
  claim_C10_overlap w10doc w10r 18 0 (by decide) (by decide) (by decide)

/-! Ranking: order facts, stability of the insertion sort model, and the
negative-slicing claims. -/

theorem keyLe_refl (p : Nat × Nat) : keyLe p p := Or.inr ⟨rfl, Nat.le_refl _⟩

theorem key_ne_of_not_ge (x y : Article) (h : ¬ articleGe x y) : keyOf y ≠ keyOf x := by
  intro he
  apply h
  unfold articleGe
  rw [he]
  exact keyLe_refl _

instance : IsTotal Article articleGe :=
  ⟨fun x y => by unfold articleGe keyLe; omega⟩

instance : IsTrans Article articleGe :=
  ⟨fun x y z h1 h2 => by unfold articleGe keyLe at h1 h2 ⊢; omega⟩

theorem filter_orderedInsert (k : Nat × Nat) (x : Article) (l : List Article) :
    (List.orderedInsert articleGe x l).filter (fun a => decide (keyOf a = k))
      = if keyOf x = k then x :: l.filter (fun a => decide (keyOf a = k))
        else l.filter (fun a => decide (keyOf a = k)) := by
  induction l with
  | nil =>
    by_cases hx : keyOf x = k
    · simp [List.orderedInsert, List.filter_cons, hx]
    · simp [List.orderedInsert, List.filter_cons, hx]
  | cons b t ih =>
    simp only [List.orderedInsert]
    by_cases hr : articleGe x b
    · rw [if_pos hr]
      by_cases hx : keyOf x = k
      · simp [List.filter_cons, hx]
      · simp [List.filter_cons, hx]
    · rw [if_neg hr]
      have hbx : keyOf b ≠ keyOf x := key_ne_of_not_ge x b hr
      by_cases hx : keyOf x = k
      · have hbk : ¬ (keyOf b = k) := fun hc => hbx (hc.trans hx.symm)
        simp [List.filter_cons, ih, hx, hbk]
      · simp [List.filter_cons, ih, hx]

theorem filter_insertionSort (k : Nat × Nat) (l : List Article) :
    (List.insertionSort articleGe l).filter (fun a => decide (keyOf a = k))
      = l.filter (fun a => decide (keyOf a = k)) := by
  induction l with
  | nil => rfl
  | cons x t ih =>
    simp only [List.insertionSort]
    rw [filter_orderedInsert]
    by_cases hx : keyOf x = k
    · rw [if_pos hx, ih, List.filter_cons]
      simp [hx]
    · rw [if_neg hx, ih, List.filter_cons]
      simp [hx]

/-- C4, counterexample: the claim demands the empty sequence for every
`n ≤ 0`, but on two articles with `n = -1` Python slicing keeps all but
the last element of the sorted list, so one article is returned. -/
theorem claim_C4_counterexample : get_top_articles cArts (-1) ≠ [] := by decide

/-- C4, amended: for `0 ≤ n` the result of `get_top_articles` has exactly
`min n (length articles)` elements (`n = 0` gives the empty sequence);
for `n < 0` Python slice semantics keep the first
`length articles - |n|` elements (truncated at zero). -/
theorem claim_C4_amended (articles : List Article) (n : Int) :
    (get_top_articles articles n).length
      = if 0 ≤ n then min n.toNat articles.length else articles.length - n.natAbs := by
  unfold get_top_articles pyTake
  by_cases h : 0 ≤ n
  · rw [if_pos h, if_pos h, List.length_take, List.length_insertionSort]
  · rw [if_neg h, if_neg h, List.length_take, List.length_insertionSort]
    omega

/-- C5, counterexample: the claim demands a prefix of length
`min (max n 0) (length articles)`, hence the empty sequence at `n = -1`,
but the code keeps all but the last element. -/
theorem claim_C5_counterexample : limit_articles cArts (-1) ≠ [] := by decide

/-- C5, amended: `limit_articles` always returns a prefix of the input;
its length is `min n (length articles)` for `0 ≤ n` and
`length articles - |n|` (truncated at zero) for `n < 0`, by Python slice
semantics. -/
theorem claim_C5_amended (articles : List Article) (n : Int) :
    (∃ z, limit_articles articles n ++ z = articles)
    ∧ (limit_articles articles n).length
      = if 0 ≤ n then min n.toNat articles.length else articles.length - n.natAbs := by
  unfold limit_articles pyTake
  by_cases h : 0 ≤ n
  · rw [if_pos h, if_pos h]
    exact ⟨⟨articles.drop n.toNat, List.take_append_drop _ _⟩, by rw [List.length_take]⟩
  · rw [if_neg h, if_neg h]
    refine ⟨⟨articles.drop (articles.length - n.natAbs), List.take_append_drop _ _⟩, ?_⟩
    rw [List.length_take]
    omega

/-- C6: for every article list and `0 ≤ n`, the output of
`get_top_articles` is sorted non-increasingly by the key pair
(reactions, comments) with absent metrics read as 0 (`keyOf` uses
`getD 0`), and the sort is stable: for every key value, the articles of
the output with that key form a prefix of the articles of the input with
that key, so equal-key articles keep their relative input order.  The
embedding is pure, so the input list is unchanged. -/
theorem claim_C6_sorted_stable (articles : List Article) (n : Int) (hn : 0 ≤ n) :
    List.Pairwise articleGe (get_top_articles articles n)
    ∧ ∀ k : Nat × Nat, ∃ z,
        articles.filter (fun a => decide (keyOf a = k))
          = (get_top_articles articles n).filter (fun a => decide (keyOf a = k)) ++ z := by
  constructor
  · have hsorted : List.Pairwise articleGe (List.insertionSort articleGe articles) :=
      List.sorted_insertionSort articleGe articles
    unfold get_top_articles pyTake
    rw [if_pos hn]
    exact List.Pairwise.sublist (List.take_sublist _ _) hsorted
  · intro k
    have hfull := filter_insertionSort k articles
    unfold get_top_articles pyTake
    rw [if_pos hn]
    refine ⟨((List.insertionSort articleGe articles).drop n.toNat).filter
      (fun a => decide (keyOf a = k)), ?_⟩
    rw [← hfull, ← List.filter_append, List.take_append_drop]

/-- C6, witness at three concrete articles containing a tied key, with
`n = 2`. -/
theorem claim_C6_witness :
    List.Pairwise articleGe (get_top_articles w6arts 2)
    ∧ ∀ k : Nat × Nat, ∃ z,
        w6arts.filter (fun a => decide (keyOf a = k))
          = (get_top_articles w6arts 2).filter (fun a => decide (keyOf a = k)) ++ z :=
  claim_C6_sorted_stable w6arts 2 (by decide)

/-! Pipeline, factory and renderer claims. -/

theorem foldl_append_form {α β : Type} (f : α → List β) (l : List α) :
    ∀ acc : List β, l.foldl (fun acc x => acc ++ f x) acc
      = acc ++ (l.map f).foldr (· ++ ·) [] := by
  induction l with
  | nil => intro acc; simp
  | cons x t ih =>
    intro acc
    simp only [List.foldl_cons, List.map_cons, List.foldr_cons]
    rw [ih (acc ++ f x), List.append_assoc]

/-- C7: starting from the resolved sources with their fetched article
lists, the pipeline ranks a per-source list with `get_top_articles`
(bounded by the global article limit) exactly when the source is a
`DevToSource`, the requested article type is the literal `top` and the
limit is positive; every other source passes through unranked; the
aggregate is the concatenation of the per-source results in source order
(which preserves intra-source order); and that aggregate is then truncated
by the same global limit. -/
theorem claim_C7_pipeline (article_type : Str) (article_limit : Int)
    (fetched : List (Source × List Article)) :
    main_articles article_type article_limit fetched
      = pyTake article_limit
          ((fetched.map (fun p =>
            if article_type = topLit ∧ 0 < article_limit ∧ p.1.isDevTo = true
            then get_top_articles p.2 article_limit else p.2)).foldr (· ++ ·) []) := by
  have h := foldl_append_form (fun p : Source × List Article =>
    if article_type = topLit ∧ 0 < article_limit ∧ p.1.isDevTo = true
    then get_top_articles p.2 article_limit else p.2) fetched []
  rw [List.nil_append] at h
  unfold main_articles main_collect limit_articles
  exact congrArg (pyTake article_limit) h

/-- C8: `create_source` yields a `DevToSource` with the extracted username
when the URL contains `dev.to` and extraction succeeds, yields nothing
when the URL contains `dev.to` but no username can be extracted, and
yields an `RssSource` for the URL unconditionally otherwise; the `dev.to`
test takes priority over RSS treatment. -/
theorem claim_C8_factory :
    (∀ url u, (findSub devtoSub url).isSome = true →
      extract_username_from_url url = some u →
      create_source url = some (Source.DevToSource u))
    ∧ (∀ url, (findSub devtoSub url).isSome = true →
      extract_username_from_url url = none → create_source url = none)
    ∧ (∀ url, (findSub devtoSub url).isSome = false →
      create_source url = some (Source.RSSFeedSource url)) := by
  refine ⟨?_, ?_, ?_⟩
  · intro url u hin hex
    simp [create_source, hin, hex]
  · intro url hin hex
    simp [create_source, hin, hex]
  · intro url hin
    simp [create_source, hin]

/-- C8, witness at the three URLs named by the spec: a profile URL with a
handle, a plain RSS URL, and a dev.to URL without an extractable handle. -/
theorem claim_C8_witness :
    create_source "https://dev.to/@alice".toList = some (Source.DevToSource "alice".toList)
    ∧ create_source "https://example.com/feed.xml".toList
      = some (Source.RSSFeedSource "https://example.com/feed.xml".toList)
    ∧ create_source "https://dev.to/".toList = none :=
  ⟨claim_C8_factory.1 _ _ (by decide) (by decide),
   claim_C8_factory.2.2 _ (by decide),
   claim_C8_factory.2.1 _ (by decide) (by decide)⟩

/-- C9: the rendered file is exactly the heading line `## Articles`, a
blank line, then one line per article in input order of the exact form
`- [title](link)`, with title and link interpolated verbatim (the
embedding concatenates the raw character lists, so no escaping occurs). -/
theorem claim_C9_render (articles : List Article) :
    write_articles articles
      = "## Articles\n\n".toList ++
        (articles.map (fun a =>
          "- [".toList ++ a.title ++ "](".toList ++ a.link ++ ")\n".toList)).foldr
          (· ++ ·) [] := by
  unfold write_articles
  have h := foldl_append_form (fun a : Article =>
    "- [".toList ++ a.title ++ "](".toList ++ a.link ++ ")\n".toList) articles []
  rw [List.nil_append] at h
  rw [h]
